import Mathlib

/-!
Shallow embedding of the folder-tree video-duration aggregator scripts found in
"Calculate Total hours Local Drive" (version 1 and version 2), together with
proofs about the properties stated in the specification.

Conventions of the embedding:

* Durations (Python floats) are modelled as rationals, so that sums and floor
  divisions are exact.
* File and folder names are lists of characters.
* A directory tree is modelled by the output of os.walk, which is what every
  script consumes: a list of entries (folder, files), where a folder is the
  list of its path components below the scanned root (the root itself is the
  empty list).  wfWalk states the shape properties that any real os.walk
  output has: distinct folders, the root present, and the parent of every
  non-root folder present.  The walk order of the list is arbitrary, exactly
  as the order of os.walk is unspecified across filesystems.
* The external collaborators are part of the input: each file carries the
  outcome of its duration probe (a duration, or an exception) and the outcome
  of its content hash (a digest, or failure, which get_file_hash in
  chaptlocaldriveaidubbing_gen1.py turns into None).
-/

/-- A folder path: the list of path components below the scanned root.  The
root itself is the empty list. -/
abbrev FolderPath := List (List Char)

/-- A regular file as seen by the scripts: its name, the outcome of probing
its duration (some value, or none when the decoder call raises an exception),
and the outcome of hashing its content (some digest, or none when hashing
fails). -/
structure VFile where
  name : List Char
  probe : Option ℚ
  hash : Option Nat
deriving DecidableEq

/-- One entry of os.walk output: a folder and the regular files directly in
it. -/
abbrev WalkEntry := FolderPath × List VFile

/-- The full os.walk output for a scanned tree. -/
abbrev Walk := List WalkEntry

/-- The folders listed by a walk. -/
def walkKeys (W : Walk) : List FolderPath := W.map Prod.fst

/-- Shape properties that every real os.walk output has: each directory is
visited exactly once, the scanned root is visited, and every visited non-root
directory has its parent directory visited as well. -/
def wfWalk (W : Walk) : Prop :=
  (walkKeys W).Nodup ∧ [] ∈ walkKeys W ∧
    ∀ p ∈ walkKeys W, p ≠ [] → p.dropLast ∈ walkKeys W

instance (W : Walk) : Decidable (wfWalk W) := by
  unfold wfWalk; infer_instance

/-- The characters of the extension ".mp4". -/
def extMp4 : List Char := ['.', 'm', 'p', '4']

/-- The characters of the extension ".mov". -/
def extMov : List Char := ['.', 'm', 'o', 'v']

/-- Python str.lower, character by character. -/
def pyLower (s : List Char) : List Char := s.map Char.toLower

/-- Python str.endswith. -/
def pyEndsWith (s suffix : List Char) : Bool := suffix.isSuffixOf s

/-- The selection test of the version 1 scripts and of
chaptlocaldriveaidubbing_gen1.py: file.lower().endswith((".mp4", ".mov")). -/
def matchLower (n : List Char) : Bool :=
  pyEndsWith (pyLower n) extMp4 || pyEndsWith (pyLower n) extMov

/-- The selection test of the deepseek and deepchat version 2 scripts:
filename.endswith((".mov", ".mp4")) with no lower() call. -/
def matchExact (n : List Char) : Bool :=
  pyEndsWith n extMov || pyEndsWith n extMp4

/-- Shallow embedding of get_video_duration as it appears in
totalhourscalclocal_gen1.py lines 11-20, totalcourseduartionlocal_gen4.py
lines 14-19 and the other variants: the probe call may raise, and on any
exception the function returns 0. -/
def get_video_duration (f : VFile) : ℚ :=
  match f.probe with
  | some d => d
  | none => 0

/-- Python int() on a float: truncation toward zero. -/
def pyInt (q : ℚ) : ℤ := if 0 ≤ q then ⌊q⌋ else -⌊-q⌋

/-- Python floor division a // b on floats. -/
def pyFloorDiv (a b : ℚ) : ℚ := (⌊a / b⌋ : ℚ)

/-- Python a % b on floats (for a positive divisor): a - b * floor(a / b). -/
def pyMod (a b : ℚ) : ℚ := a - b * (⌊a / b⌋ : ℚ)

/-- Shallow embedding of format_time_hms (totalcourseduartionlocal_gen4.py
lines 8-12) and of format_duration (deepchatwithashwanthaidubbing.py lines
25-30): hours = int(s // 3600), minutes = int((s % 3600) // 60),
seconds = int(s % 60).  The result is the (hours, minutes, seconds) triple
that the formatted message displays. -/
def format_time_hms (seconds : ℚ) : ℤ × ℤ × ℤ :=
  (pyInt (pyFloorDiv seconds 3600),
   pyInt (pyFloorDiv (pyMod seconds 3600) 60),
   pyInt (pyMod seconds 60))

/-- The Windows path separator used by the scripts. -/
def pathSep : Char := '\\'

/-- The full path string of a folder: the root path followed by separator and
component for each path component.  This is the dictionary key the scripts
build with os.path.join / os.walk. -/
def pathKey (root : List Char) (p : FolderPath) : List Char :=
  root ++ p.flatMap (fun comp => pathSep :: comp)

/-- Decidable test that folder path p is an initial segment of folder path q,
that is, q lies in the subtree rooted at p. -/
def under : FolderPath → FolderPath → Bool
  | [], _ => true
  | _ :: _, [] => false
  | a :: as, b :: bs => decide (a = b) && under as bs

/-- Python str.isspace characters stripped by str.strip(). -/
def pyIsSpace (c : Char) : Bool :=
  c = ' ' || c = '\t' || c = '\n' || c = '\r' || c = '\x0b' || c = '\x0c'

/-- Python str.strip(). -/
def pyStrip (s : List Char) : List Char :=
  ((s.dropWhile pyIsSpace).reverse.dropWhile pyIsSpace).reverse

/-- Outcome of the ffprobe subprocess call: either some exception was raised,
or the call completed with the given standard output text. -/
inductive ProbeOutcome where
  | raised : ProbeOutcome
  | completed (stdout : List Char) : ProbeOutcome

/-- A work item as queued by the version 2 scripts: the folder a video file
was found in, together with the file. -/
structure QItem where
  folder : FolderPath
  file : VFile
deriving DecidableEq

namespace Gen4

/-- Shallow embedding of process_folder (totalcourseduartionlocal_gen4.py
lines 24-30): starting from 0, every file whose lowercased name ends in .mp4
or .mov adds its probed duration. -/
def process_folder (files : List VFile) : ℚ :=
  files.foldl (fun acc f => if matchLower f.name then acc + get_video_duration f else acc) 0

/-- The folder_durations dictionary right after the executor loop of
traverse_folder (lines 36-43): every walked folder maps to its direct
duration.  A path that was not walked is absent from the dictionary; the
embedding returns 0 there, and the roll-up step below never reads such a
path. -/
def initDur (W : Walk) : FolderPath → ℚ :=
  fun p =>
    match W.find? (fun e => decide (e.1 = p)) with
    | some e => process_folder e.2
    | none => 0

/-- The sorted folder list of traverse_folder line 46: all walked folders,
deepest first (sorted by separator count of the full path, descending, which
is path length descending for paths below a fixed root). -/
def sortedFolders (W : Walk) : List FolderPath :=
  (walkKeys W).mergeSort (fun a b => decide (b.length ≤ a.length))

/-- One iteration of the roll-up loop of traverse_folder lines 47-50:
folder_durations[parent] += folder_durations[folder].  The test
"parent in folder_durations" fails exactly for the scanned root (whose
dirname lies outside the walk), i.e. exactly when the folder path is the
empty list. -/
def rollStep (v : FolderPath → ℚ) (f : FolderPath) : FolderPath → ℚ :=
  if f = [] then v else Function.update v f.dropLast (v f.dropLast + v f)

/-- The folder_durations dictionary after the roll-up loop of traverse_folder
(lines 45-50) has completed. -/
def folder_durations (W : Walk) : FolderPath → ℚ :=
  (sortedFolders W).foldl rollStep (initDur W)

/-- The probe invocations performed by a run of traverse_folder, in order:
process_folder calls get_video_duration once for every matching file of every
walked folder.  Each invocation is recorded as (folder, file name). -/
def probe_calls (W : Walk) : List (FolderPath × List Char) :=
  W.flatMap (fun e => (e.2.filter (fun f => matchLower f.name)).map (fun f => (e.1, f.name)))

/-- The per-folder report rows written by traverse_folder lines 52-60 to both
the log and the CSV: the folder_durations items sorted by key (the full
folder path string), each row carrying the folder path and the formatted
duration. -/
def report_rows (root : List Char) (W : Walk) : List (List Char × ℤ × ℤ × ℤ) :=
  ((walkKeys W).mergeSort (fun a b => decide (pathKey root a ≤ pathKey root b))).map
    (fun p => (pathKey root p, format_time_hms (folder_durations W p)))

/-- Specification-side notion used to state the roll-up claim: the immediate
child folders of p that appear in the walk. -/
def childrenOf (W : Walk) (p : FolderPath) : Finset FolderPath :=
  ((walkKeys W).toFinset).filter (fun q => q ≠ [] ∧ q.dropLast = p)

/-- Specification-side notion used in the roll-up proof: the sum of the
direct durations of every walked folder inside the subtree rooted at p. -/
def subtreeTotal (W : Walk) (p : FolderPath) : ℚ :=
  ∑ q ∈ ((walkKeys W).toFinset).filter (fun q => under p q = true), initDur W q

/-- Invariant of the roll-up loop, indexed by the list D of folders already
processed: every walked folder holds its direct duration plus the subtree
totals of those of its children already processed. -/
def RollInv (W : Walk) (D : List FolderPath) (v : FolderPath → ℚ) : Prop :=
  ∀ p ∈ walkKeys W,
    v p = initDur W p + ∑ c ∈ (childrenOf W p).filter (fun c => c ∈ D), subtreeTotal W c

end Gen4

namespace Nemulti

/-- Shallow embedding of process_videos_in_folder
(nemultilocalduration_gen1.py lines 40-50): the durations of the matching
files of one folder are summed. -/
def process_videos_in_folder (files : List VFile) : ℚ :=
  ((files.filter (fun f => matchLower f.name)).map get_video_duration).sum

/-- The folder_durations dictionary of traverse_folder
(nemultilocalduration_gen1.py lines 52-70): one entry per walked folder that
contains at least one file (the script only submits folders with files), each
holding only that folder's direct duration — there is no roll-up step in this
script. -/
def folder_durations (W : Walk) : List (FolderPath × ℚ) :=
  (W.filter (fun e => decide (e.2 ≠ []))).map
    (fun e => (e.1, process_videos_in_folder e.2))

/-- The grand total logged by traverse_folder line 75: the sum of the
per-folder direct durations. -/
def total_duration (W : Walk) : ℚ := ((folder_durations W).map Prod.snd).sum

/-- The duration reported for one folder in the final summary (lines 78-83):
the folder_durations entry of that folder, if any. -/
def reported (W : Walk) (p : FolderPath) : Option ℚ :=
  ((folder_durations W).find? (fun e => decide (e.1 = p))).map Prod.snd

end Nemulti

namespace ChaptGen1

/-- Shallow embedding of the ffprobe wrapper get_video_duration of
chaptlocaldriveaidubbing_gen1.py lines 11-22 (same logic in
deepseek_chaptaiashwant.py lines 22-35): on an exception, return 0; on empty
(stripped) standard output, return 0; otherwise parse the text as a float.
The float parser is an opaque collaborator, passed as a parameter. -/
def get_video_duration_of_stdout (parse : List Char → ℚ) : ProbeOutcome → ℚ
  | ProbeOutcome.raised => 0
  | ProbeOutcome.completed out => if pyStrip out = [] then 0 else parse (pyStrip out)

/-- The queue built by scan_folder lines 62-66: one item per file of the walk
whose lowercased name ends in .mp4 or .mov, in walk order. -/
def build_queue (W : Walk) : List QItem :=
  W.flatMap (fun e => (e.2.filter (fun f => matchLower f.name)).map (fun f => QItem.mk e.1 f))

/-- results[folder] += d on the defaultdict(float) of scan_folder: if the
folder has an entry, add to it, otherwise append a new entry holding d. -/
def bump (m : List (FolderPath × ℚ)) (k : FolderPath) (d : ℚ) : List (FolderPath × ℚ) :=
  match m with
  | [] => [(k, d)]
  | e :: rest => if e.1 = k then (e.1, e.2 + d) :: rest else e :: bump rest k d

/-- The dedup-and-accumulate loop of process_videos (lines 36-53), for the
order in which the worker threads claim the items: each item's hash (None
when hashing failed) is looked up in the duplicates set; a seen hash skips
the item, an unseen hash is added and the item's probed duration is added to
its folder's entry. -/
def run : List (Option Nat) → List (FolderPath × ℚ) → List QItem → List (FolderPath × ℚ)
  | _, m, [] => m
  | seen, m, it :: rest =>
    if it.file.hash ∈ seen then run seen m rest
    else run (it.file.hash :: seen) (bump m it.folder (get_video_duration it.file)) rest

/-- The results dictionary after all worker threads have finished, for the
given claim order. -/
def results (L : List QItem) : List (FolderPath × ℚ) := run [] [] L

/-- The grand total of main (line 83): sum(results.values()). -/
def total_duration (L : List QItem) : ℚ := ((results L).map Prod.snd).sum

/-- Specification-side replay of the dedup decisions of run: the items of L
are split into those that were counted (first item for each hash value) and
those that were skipped as duplicates. -/
def split_dedup : List (Option Nat) → List QItem → List QItem × List QItem
  | _, [] => ([], [])
  | seen, it :: rest =>
    if it.file.hash ∈ seen then
      ((split_dedup seen rest).1, it :: (split_dedup seen rest).2)
    else
      (it :: (split_dedup (it.file.hash :: seen) rest).1,
       (split_dedup (it.file.hash :: seen) rest).2)

/-- The items whose durations were counted by run. -/
def keptList (L : List QItem) : List QItem := (split_dedup [] L).1

/-- The items skipped as duplicates by run. -/
def excludedList (L : List QItem) : List QItem := (split_dedup [] L).2

/-- The set of hash outcomes occurring among the items of L. -/
def hashFinset (L : List QItem) : Finset (Option Nat) :=
  (L.map (fun it => it.file.hash)).toFinset

end ChaptGen1

namespace DubCheck

/-- The matched files of scan_folder in deepseekaisashwenthdubbingcheck.py
lines 29-37: every file of the walk whose name ends (case-sensitively) in
.mov or .mp4, in walk order, with the folder it was found in. -/
def matched_items (W : Walk) : List QItem :=
  W.flatMap (fun e => (e.2.filter (fun f => matchExact f.name)).map (fun f => QItem.mk e.1 f))

/-- The total_duration accumulator of scan_folder: every matched file adds
its probed duration; nothing is ever excluded. -/
def total_duration (W : Walk) : ℚ :=
  (matched_items W).foldl (fun acc it => acc + get_video_duration it.file) 0

end DubCheck

namespace Deepchat

/-- The matched files of scan_folder in deepchatwithashwanthaidubbing.py
lines 78-103: every file of the walk whose name ends (case-sensitively) in
.mov or .mp4, in walk order, with the folder it was found in. -/
def matched_items (W : Walk) : List QItem :=
  W.flatMap (fun e => (e.2.filter (fun f => matchExact f.name)).map (fun f => QItem.mk e.1 f))

/-- The total_duration accumulator of scan_folder: every matched file adds
its probed duration, duplicates included. -/
def total_duration (W : Walk) : ℚ :=
  (matched_items W).foldl (fun acc it => acc + get_video_duration it.file) 0

/-- The file_hashes group of one hash value: the matched items carrying that
hash outcome, in walk order. -/
def group (W : Walk) (h : Option Nat) : List QItem :=
  (matched_items W).filter (fun it => decide (it.file.hash = h))

/-- The keys of the file_hashes dictionary, in first-seen order. -/
def hash_list (W : Walk) : List (Option Nat) :=
  ((matched_items W).map (fun it => it.file.hash)).foldr
    (fun h acc => h :: acc.filter (fun x => decide (x ≠ h))) []

/-- The duplicates log of scan_folder lines 108-120: for every hash whose
group has more than one member, every member of the group — the first one
included — is listed with its (re-probed) duration. -/
def duplicates_report (W : Walk) : List (QItem × ℚ) :=
  ((hash_list W).filter (fun h => decide (1 < (group W h).length))).flatMap
    (fun h => (group W h).map (fun it => (it, get_video_duration it.file)))

/-- The duplicate_duration accumulator of lines 110-119: the durations of all
listed duplicate-group members summed. -/
def duplicate_duration (W : Walk) : ℚ := ((duplicates_report W).map Prod.snd).sum

end Deepchat

namespace DeepChapt

/-- The folder_durations items of scan_folder in deepseek_chaptaiashwant.py,
as iterated by the report loop of lines 94-98: dictionary insertion order,
that is, walk order restricted to folders with at least one matching file;
each folder carries the sum of the probed durations of its matching files.
No sorting is applied. -/
def folder_rows (W : Walk) : List (FolderPath × ℚ) :=
  (W.filter (fun e => e.2.any (fun f => matchExact f.name))).map
    (fun e => (e.1, ((e.2.filter (fun f => matchExact f.name)).map get_video_duration).sum))

end DeepChapt

namespace HoursCalc1

/-- The selection test of traverse_folder in totalhourscalclocal_gen1.py line
30: file.lower().endswith((".mp4", ".mov")). -/
def selects (n : List Char) : Bool := matchLower n

end HoursCalc1

namespace DeepAi

/-- The selection test of scan_folder in deepseek_aiashwanth.py line 45:
filename.endswith((".mov", ".mp4")) — no lower() call. -/
def selects (n : List Char) : Bool := matchExact n

end DeepAi

/-- A video file name in lower case: "v.mp4". -/
def nmVid : List Char := ['v', '.', 'm', 'p', '4']

/-- A video file name in upper case: "VIDEO.MP4". -/
def nmUpper : List Char := ['V', 'I', 'D', 'E', 'O', '.', 'M', 'P', '4']

/-- The same name lower-cased: "video.mp4". -/
def nmLowerOfUpper : List Char := ['v', 'i', 'd', 'e', 'o', '.', 'm', 'p', '4']

/-- A mixed-case .mov name: "clip.Mov". -/
def nmClipMov : List Char := ['c', 'l', 'i', 'p', '.', 'M', 'o', 'v']

/-- Path component "A". -/
def compA : List Char := ['A']

/-- Path component "B". -/
def compB : List Char := ['B']

/-- Path component "C". -/
def compC : List Char := ['C']

/-- A depth-3 walk used as concrete witness input: root, A (10s), A/B (20s),
A/B/C (40s), and C whose only file's probe fails. -/
def exW1 : Walk :=
  [([], []),
   ([compA], [⟨nmVid, some 10, some 1⟩]),
   ([compA, compB], [⟨nmVid, some 20, some 2⟩]),
   ([compA, compB, compC], [⟨nmVid, some 40, some 3⟩]),
   ([compC], [⟨nmVid, none, some 4⟩])]

/-- A two-level walk used as concrete counterexample input: root, A (10s),
A/B (20s). -/
def exW1c : Walk :=
  [([], []),
   ([compA], [⟨nmVid, some 10, some 1⟩]),
   ([compA, compB], [⟨nmVid, some 20, some 2⟩])]

/-- A walk with duplicate content: A/v.mp4 and B/v.mp4 share hash 9 and both
probe to 15 seconds. -/
def exWdup : Walk :=
  [([], []),
   ([compA], [⟨nmVid, some 15, some 9⟩]),
   ([compB], [⟨nmVid, some 15, some 9⟩])]

/-- The queued item of folder A in exWdup. -/
def itemA : QItem := ⟨[compA], ⟨nmVid, some 15, some 9⟩⟩

/-- The queued item of folder B in exWdup. -/
def itemB : QItem := ⟨[compB], ⟨nmVid, some 15, some 9⟩⟩

/-- Two queued items whose hashing failed (hash outcome None): folder A with
10 seconds, folder B with 20 seconds. -/
def itemHashFailA : QItem := ⟨[compA], ⟨nmVid, some 10, none⟩⟩

/-- Second hash-failure item, see itemHashFailA. -/
def itemHashFailB : QItem := ⟨[compB], ⟨nmVid, some 20, none⟩⟩

/-- A walk whose walk order lists folder B before folder A (os.walk order is
the unspecified directory listing order of the filesystem). -/
def exW9 : Walk :=
  [([], []),
   ([compB], [⟨nmVid, some 5, some 1⟩]),
   ([compA], [⟨nmVid, some 7, some 2⟩])]

/-- Claim C7, counterexample: the claim says selection ignores letter case in
every script and names "VIDEO.MP4" as included, but the selection test of
deepseek_aiashwanth.py (scan_folder line 45) rejects "VIDEO.MP4" while
accepting its lower-cased form. -/
theorem C7_counterexample :
    DeepAi.selects nmUpper = false ∧ DeepAi.selects (pyLower nmUpper) = true := by
  decide

/-- Claim C7 as amended: the version 1 selection test (lower().endswith) is
case-insensitive — it depends only on the lower-cased name — and accepts
"VIDEO.MP4" and "clip.Mov"; the deepseek version 2 selection test compares
case-sensitively, rejecting "VIDEO.MP4" while accepting "video.mp4". -/
theorem C7_extension_filter_amended :
    (∀ a b : List Char, pyLower a = pyLower b → HoursCalc1.selects a = HoursCalc1.selects b) ∧
    HoursCalc1.selects nmUpper = true ∧
    HoursCalc1.selects nmClipMov = true ∧
    DeepAi.selects nmUpper = false ∧
    DeepAi.selects nmLowerOfUpper = true := by
  refine ⟨?_, by decide, by decide, by decide, by decide⟩
  intro a b h
  simp only [HoursCalc1.selects, matchLower, h]

/-- Witness for C7_extension_filter_amended at the concrete pair
("VIDEO.MP4", "video.mp4"). -/
theorem C7_extension_filter_amended_witness :
    pyLower nmUpper = pyLower nmLowerOfUpper ∧
    HoursCalc1.selects nmUpper = HoursCalc1.selects nmLowerOfUpper :=
  ⟨by decide, C7_extension_filter_amended.1 nmUpper nmLowerOfUpper (by decide)⟩

/-- Claim C10: when the ffprobe subprocess completes but its standard output
strips to the empty text, the prober returns 0, the same value as when the
probe raises, and such a file contributes nothing to any total it is summed
into. -/
theorem C10_empty_probe_output (parse : List Char → ℚ) (out : List Char)
    (h : pyStrip out = []) :
    ChaptGen1.get_video_duration_of_stdout parse (ProbeOutcome.completed out) = 0 ∧
    ChaptGen1.get_video_duration_of_stdout parse (ProbeOutcome.completed out) =
      ChaptGen1.get_video_duration_of_stdout parse ProbeOutcome.raised ∧
    ∀ pre post : List ℚ,
      (pre ++ ChaptGen1.get_video_duration_of_stdout parse (ProbeOutcome.completed out) :: post).sum
        = (pre ++ post).sum := by
  have h0 : ChaptGen1.get_video_duration_of_stdout parse (ProbeOutcome.completed out) = 0 := by
    simp [ChaptGen1.get_video_duration_of_stdout, h]
  refine ⟨h0, h0.trans rfl, ?_⟩
  intro pre post
  simp [h0, List.sum_append]

/-- Witness for C10_empty_probe_output on whitespace-only standard output and
an arbitrary nonzero parser. -/
theorem C10_empty_probe_output_witness :
    pyStrip [' ', '\n'] = [] ∧
    ChaptGen1.get_video_duration_of_stdout (fun _ => 99) (ProbeOutcome.completed [' ', '\n']) = 0 :=
  ⟨by decide, (C10_empty_probe_output (fun _ => 99) [' ', '\n'] (by decide)).1⟩

/-- Claim C5, code-bug evaluation: process_videos of
chaptlocaldriveaidubbing_gen1.py inserts the None returned by a failed
get_file_hash into the duplicates set, so of two distinct files that both
fail hashing (10s in folder A, 20s in folder B) the second is skipped as a
"duplicate": the grand total is 10, not the 10 + 20 the claim requires, and
the second file lands in the excluded set. -/
theorem C5_hash_failure_eval :
    ChaptGen1.total_duration [itemHashFailA, itemHashFailB] = 10 ∧
    ChaptGen1.excludedList [itemHashFailA, itemHashFailB] = [itemHashFailB] ∧
    get_video_duration itemHashFailB.file = 20 ∧
    (10 : ℚ) ≠ 10 + 20 := by
  refine ⟨?_, ?_, ?_, by norm_num⟩
  · simp [ChaptGen1.total_duration, ChaptGen1.results, ChaptGen1.run, ChaptGen1.bump,
      itemHashFailA, itemHashFailB, get_video_duration]
  · simp [ChaptGen1.excludedList, ChaptGen1.split_dedup, itemHashFailA, itemHashFailB]
  · simp [itemHashFailB, get_video_duration]

/-- Claim C8, counterexample: the same work items in two thread claim orders
(a permutation of each other) yield different per-folder results — the
duplicate pair's 15 seconds land in folder A under one schedule and in folder
B under the other — so the per-folder report content is not independent of
worker scheduling. -/
theorem C8_counterexample :
    List.Perm [itemA, itemB] [itemB, itemA] ∧
    ChaptGen1.results [itemA, itemB] = [([compA], 15)] ∧
    ChaptGen1.results [itemB, itemA] = [([compB], 15)] ∧
    ChaptGen1.results [itemA, itemB] ≠ ChaptGen1.results [itemB, itemA] := by
  refine ⟨List.Perm.swap itemB itemA [], ?_, ?_, ?_⟩
  · simp [ChaptGen1.results, ChaptGen1.run, ChaptGen1.bump, itemA, itemB, get_video_duration]
  · simp [ChaptGen1.results, ChaptGen1.run, ChaptGen1.bump, itemA, itemB, get_video_duration]
  · simp [ChaptGen1.results, ChaptGen1.run, ChaptGen1.bump, itemA, itemB,
      get_video_duration, compA, compB]

/-- Folding accumulation equals the map-sum: the total_duration accumulator
pattern of the version 2 scripts. -/
theorem foldl_add_eq {α : Type _} (f : α → ℚ) (L : List α) : ∀ a : ℚ,
    L.foldl (fun acc it => acc + f it) a = a + (L.map f).sum := by
  induction L with
  | nil => intro a; simp
  | cons it rest ih => intro a; simp [ih]; ring

/-- bump adds exactly its increment to the sum of the dictionary values. -/
theorem chapt_bump_sum (m : List (FolderPath × ℚ)) (k : FolderPath) (d : ℚ) :
    ((ChaptGen1.bump m k d).map Prod.snd).sum = (m.map Prod.snd).sum + d := by
  induction m with
  | nil => simp [ChaptGen1.bump]
  | cons e rest ih =>
    by_cases h : e.1 = k
    · simp [ChaptGen1.bump, h]; ring
    · simp [ChaptGen1.bump, h, ih]; ring

/-- The value sum of the dictionary produced by run is the starting sum plus
the durations of the items kept by the dedup check. -/
theorem chapt_run_sum : ∀ (L : List QItem) (seen : List (Option Nat)) (m : List (FolderPath × ℚ)),
    ((ChaptGen1.run seen m L).map Prod.snd).sum =
      (m.map Prod.snd).sum +
        (((ChaptGen1.split_dedup seen L).1).map (fun it => get_video_duration it.file)).sum := by
  intro L
  induction L with
  | nil => intro seen m; simp [ChaptGen1.run, ChaptGen1.split_dedup]
  | cons it rest ih =>
    intro seen m
    by_cases h : it.file.hash ∈ seen
    · simp [ChaptGen1.run, ChaptGen1.split_dedup, h, ih]
    · simp [ChaptGen1.run, ChaptGen1.split_dedup, h, ih, chapt_bump_sum]
      ring

/-- split_dedup partitions the duration sum of its input. -/
theorem chapt_split_sum (f : QItem → ℚ) : ∀ (L : List QItem) (seen : List (Option Nat)),
    (L.map f).sum =
      (((ChaptGen1.split_dedup seen L).1).map f).sum +
        (((ChaptGen1.split_dedup seen L).2).map f).sum := by
  intro L
  induction L with
  | nil => intro seen; simp [ChaptGen1.split_dedup]
  | cons it rest ih =>
    intro seen
    by_cases h : it.file.hash ∈ seen
    · simp [ChaptGen1.split_dedup, h, ih seen]; ring
    · simp [ChaptGen1.split_dedup, h, ih (it.file.hash :: seen)]; ring

/-- Claim C2: the grand total of the dedup-enabled threaded variant equals
the sum of the probed durations of all queued video files minus the durations
of the files its dedup check excluded; the grand total of the walk-and-sum
variant (no exclusion) equals the plain sum over all matched files; and a
file whose probe failed contributes exactly 0. -/
theorem C2_grand_total (W : Walk) :
    (ChaptGen1.total_duration (ChaptGen1.build_queue W) =
      ((ChaptGen1.build_queue W).map (fun it => get_video_duration it.file)).sum -
        ((ChaptGen1.excludedList (ChaptGen1.build_queue W)).map
          (fun it => get_video_duration it.file)).sum) ∧
    (DubCheck.total_duration W =
      ((DubCheck.matched_items W).map (fun it => get_video_duration it.file)).sum) ∧
    ∀ f : VFile, f.probe = none → get_video_duration f = 0 := by
  refine ⟨?_, ?_, ?_⟩
  · have h1 := chapt_run_sum (ChaptGen1.build_queue W) [] []
    have h2 := chapt_split_sum (fun it => get_video_duration it.file) (ChaptGen1.build_queue W) []
    simp only [ChaptGen1.total_duration, ChaptGen1.results, ChaptGen1.excludedList,
      List.map_nil, List.sum_nil, zero_add] at *
    rw [h1, h2]
    ring
  · simpa using foldl_add_eq (fun it => get_video_duration it.file) (DubCheck.matched_items W) 0
  · intro f hf
    simp [get_video_duration, hf]

/-- Witness for C2_grand_total at the duplicate-content walk and a
probe-failing file. -/
theorem C2_grand_total_witness :
    (⟨nmVid, none, some 4⟩ : VFile).probe = none ∧
    get_video_duration ⟨nmVid, none, some 4⟩ = 0 ∧
    ChaptGen1.total_duration (ChaptGen1.build_queue exWdup) =
      ((ChaptGen1.build_queue exWdup).map (fun it => get_video_duration it.file)).sum -
        ((ChaptGen1.excludedList (ChaptGen1.build_queue exWdup)).map
          (fun it => get_video_duration it.file)).sum :=
  ⟨rfl, (C2_grand_total exWdup).2.2 _ rfl, (C2_grand_total exWdup).1⟩

/-- Of the items carrying a given hash outcome, the dedup check keeps exactly
the first one (none, if that hash was already seen). -/
theorem chapt_split_kept_filter (h : Option Nat) :
    ∀ (L : List QItem) (seen : List (Option Nat)),
      ((ChaptGen1.split_dedup seen L).1).filter (fun it => decide (it.file.hash = h)) =
        if h ∈ seen then [] else (L.filter (fun it => decide (it.file.hash = h))).take 1 := by
  intro L
  induction L with
  | nil =>
    intro seen
    by_cases hs : h ∈ seen <;> simp [ChaptGen1.split_dedup, hs]
  | cons it rest ih =>
    intro seen
    by_cases hseen : it.file.hash ∈ seen
    · by_cases hh : h ∈ seen
      · simp [ChaptGen1.split_dedup, hseen, ih seen, hh]
      · have hne : ¬ it.file.hash = h := fun e => hh (e ▸ hseen)
        simp [ChaptGen1.split_dedup, hseen, ih seen, hh, List.filter_cons, hne]
    · by_cases hit : it.file.hash = h
      · subst hit
        simp [ChaptGen1.split_dedup, hseen, List.filter_cons,
          ih (it.file.hash :: seen)]
      · by_cases hh : h ∈ seen
        · simp [ChaptGen1.split_dedup, hseen, List.filter_cons, hit,
            ih (it.file.hash :: seen), hh]
        · simp [ChaptGen1.split_dedup, hseen, List.filter_cons, hit,
            ih (it.file.hash :: seen), hh]
          intro he
          exact absurd he.symm hit

/-- Of the items carrying a given hash outcome, the dedup check excludes all
but the first one (all of them, if that hash was already seen). -/
theorem chapt_split_excluded_filter (h : Option Nat) :
    ∀ (L : List QItem) (seen : List (Option Nat)),
      ((ChaptGen1.split_dedup seen L).2).filter (fun it => decide (it.file.hash = h)) =
        if h ∈ seen then L.filter (fun it => decide (it.file.hash = h))
        else (L.filter (fun it => decide (it.file.hash = h))).drop 1 := by
  intro L
  induction L with
  | nil =>
    intro seen
    by_cases hs : h ∈ seen <;> simp [ChaptGen1.split_dedup, hs]
  | cons it rest ih =>
    intro seen
    by_cases hseen : it.file.hash ∈ seen
    · by_cases hh : h ∈ seen
      · simp [ChaptGen1.split_dedup, hseen, ih seen, hh, List.filter_cons]
      · have hne : ¬ it.file.hash = h := fun e => hh (e ▸ hseen)
        simp [ChaptGen1.split_dedup, hseen, ih seen, hh, List.filter_cons, hne]
    · by_cases hit : it.file.hash = h
      · subst hit
        simp [ChaptGen1.split_dedup, hseen, List.filter_cons,
          ih (it.file.hash :: seen)]
      · by_cases hh : h ∈ seen
        · simp [ChaptGen1.split_dedup, hseen, List.filter_cons, hit,
            ih (it.file.hash :: seen), hh]
        · simp [ChaptGen1.split_dedup, hseen, List.filter_cons, hit,
            ih (it.file.hash :: seen), hh]
          intro he
          exact absurd he.symm hit

/-- Membership in the first-seen hash key list of deepchat equals membership
among the matched items' hashes. -/
theorem deepchat_mem_hash_list_aux (a : Option Nat) :
    ∀ l : List (Option Nat),
      (a ∈ l.foldr (fun h acc => h :: acc.filter (fun x => decide (x ≠ h))) []) ↔ a ∈ l := by
  intro l
  induction l with
  | nil => simp
  | cons h rest ih =>
    constructor
    · intro hm
      rcases List.mem_cons.mp hm with he | hm2
      · exact he ▸ List.mem_cons_self _ _
      · exact List.mem_cons_of_mem _ (ih.mp (List.mem_of_mem_filter hm2))
    · intro hm
      rcases List.mem_cons.mp hm with he | hm2
      · exact he ▸ List.mem_cons_self _ _
      · by_cases hah : a = h
        · exact hah ▸ List.mem_cons_self _ _
        · refine List.mem_cons_of_mem _ (List.mem_filter.mpr ⟨ih.mpr hm2, by simpa using hah⟩)

/-- Claim C3, counterexample: in the walk-and-report variant
(deepchatwithashwanthaidubbing.py), two files with identical hash and 15
seconds each both contribute — the grand total is 30, not the 15 the claim
("exactly one of them contributes its duration") requires; moreover every
member of the duplicate group, the first included, is listed in the
duplicates report, and duplicate_duration sums all of them. -/
theorem C3_counterexample :
    Deepchat.total_duration exWdup = 30 ∧
    (Deepchat.duplicates_report exWdup).length = 2 ∧
    Deepchat.duplicate_duration exWdup = 30 ∧
    (30 : ℚ) ≠ 15 := by
  refine ⟨?_, ?_, ?_, by norm_num⟩
  · simp [Deepchat.total_duration, Deepchat.matched_items, exWdup, nmVid,
      get_video_duration, matchExact]
    norm_num [pyEndsWith, extMov, extMp4, List.isSuffixOf]
  · simp [Deepchat.duplicates_report, Deepchat.hash_list, Deepchat.group,
      Deepchat.matched_items, exWdup, nmVid, matchExact, pyEndsWith, extMov, extMp4,
      List.isSuffixOf, get_video_duration]
  · simp [Deepchat.duplicate_duration, Deepchat.duplicates_report, Deepchat.hash_list,
      Deepchat.group, Deepchat.matched_items, exWdup, nmVid, matchExact, pyEndsWith,
      extMov, extMp4, List.isSuffixOf, get_video_duration]
    norm_num

/-- Claim C3 as amended: the two behaviours live in different scripts. In the
threaded dedup variant (chaptlocaldriveaidubbing_gen1.py), for every hash
outcome exactly the first item of the claim order carrying it is counted and
all later ones are excluded from the totals — but that script emits no
duplicates report at all. In the walk-and-report variant
(deepchatwithashwanthaidubbing.py), the grand total counts every matched file
including all duplicates, while every member of a duplicate-content group
(the canonical first one included) appears in the duplicates report together
with its own measured duration. -/
theorem C3_dedup_amended :
    (∀ (L : List QItem) (h : Option Nat),
      (ChaptGen1.keptList L).filter (fun it => decide (it.file.hash = h)) =
        (L.filter (fun it => decide (it.file.hash = h))).take 1 ∧
      (ChaptGen1.excludedList L).filter (fun it => decide (it.file.hash = h)) =
        (L.filter (fun it => decide (it.file.hash = h))).drop 1) ∧
    (∀ W : Walk, Deepchat.total_duration W =
      ((Deepchat.matched_items W).map (fun it => get_video_duration it.file)).sum) ∧
    ∀ (W : Walk) (it : QItem), it ∈ Deepchat.matched_items W →
      1 < (Deepchat.group W it.file.hash).length →
      (it, get_video_duration it.file) ∈ Deepchat.duplicates_report W := by
  refine ⟨?_, ?_, ?_⟩
  · intro L h
    constructor
    · simpa using chapt_split_kept_filter h L []
    · simpa using chapt_split_excluded_filter h L []
  · intro W
    simpa using foldl_add_eq (fun it => get_video_duration it.file) (Deepchat.matched_items W) 0
  · intro W it hmem hlen
    refine List.mem_flatMap.mpr ⟨it.file.hash, ?_, ?_⟩
    · refine List.mem_filter.mpr ⟨?_, by simpa using hlen⟩
      exact (deepchat_mem_hash_list_aux it.file.hash _).mpr
        (List.mem_map.mpr ⟨it, hmem, rfl⟩)
    · exact List.mem_map.mpr ⟨it, List.mem_filter.mpr ⟨hmem, by simp⟩, rfl⟩

/-- Witness for C3_dedup_amended: in the duplicate-content walk, the folder A
copy is a member of a duplicate group of size 2 and appears in the deepchat
duplicates report with its own 15-second duration. -/
theorem C3_dedup_amended_witness :
    itemA ∈ Deepchat.matched_items exWdup ∧
    1 < (Deepchat.group exWdup itemA.file.hash).length ∧
    (itemA, get_video_duration itemA.file) ∈ Deepchat.duplicates_report exWdup :=
  ⟨by simp [Deepchat.matched_items, exWdup, itemA, nmVid, matchExact, pyEndsWith,
      extMov, extMp4, List.isSuffixOf],
   by simp [Deepchat.group, Deepchat.matched_items, exWdup, itemA, nmVid, matchExact,
      pyEndsWith, extMov, extMp4, List.isSuffixOf],
   C3_dedup_amended.2.2 exWdup itemA
     (by simp [Deepchat.matched_items, exWdup, itemA, nmVid, matchExact, pyEndsWith,
        extMov, extMp4, List.isSuffixOf])
     (by simp [Deepchat.group, Deepchat.matched_items, exWdup, itemA, nmVid, matchExact,
        pyEndsWith, extMov, extMp4, List.isSuffixOf])⟩

/-- The kept durations sum to one representative duration per distinct hash
outcome, provided the probed duration is a function of the hash outcome. -/
theorem chapt_kept_hash_sum (dval : Option Nat → ℚ) :
    ∀ (L : List QItem) (seen : List (Option Nat)),
      (∀ it ∈ L, get_video_duration it.file = dval it.file.hash) →
      (((ChaptGen1.split_dedup seen L).1).map (fun it => get_video_duration it.file)).sum =
        ∑ h ∈ ChaptGen1.hashFinset L \ seen.toFinset, dval h := by
  intro L
  induction L with
  | nil => intro seen _; simp [ChaptGen1.split_dedup, ChaptGen1.hashFinset]
  | cons it rest ih =>
    intro seen hd
    have hdrest : ∀ x ∈ rest, get_video_duration x.file = dval x.file.hash :=
      fun x hx => hd x (List.mem_cons_of_mem _ hx)
    have hfs : ChaptGen1.hashFinset (it :: rest) =
        insert it.file.hash (ChaptGen1.hashFinset rest) := by
      simp [ChaptGen1.hashFinset]
    by_cases hseen : it.file.hash ∈ seen
    · rw [hfs]
      rw [Finset.insert_sdiff_of_mem _ (List.mem_toFinset.mpr hseen)]
      simpa [ChaptGen1.split_dedup, hseen] using ih seen hdrest
    · rw [hfs]
      have hnotm : it.file.hash ∉ seen.toFinset := by simpa using hseen
      have step : (ChaptGen1.split_dedup seen (it :: rest)).1 =
          it :: (ChaptGen1.split_dedup (it.file.hash :: seen) rest).1 := by
        simp [ChaptGen1.split_dedup, hseen]
      rw [step]
      simp only [List.map_cons, List.sum_cons]
      rw [ih (it.file.hash :: seen) hdrest, hd it (List.mem_cons_self _ _)]
      have hseen2 : (it.file.hash :: seen).toFinset = insert it.file.hash seen.toFinset := by
        simp
      rw [hseen2, Finset.sdiff_insert]
      by_cases hin : it.file.hash ∈ ChaptGen1.hashFinset rest
      · have hin2 : it.file.hash ∈ ChaptGen1.hashFinset rest \ seen.toFinset :=
          Finset.mem_sdiff.mpr ⟨hin, hnotm⟩
        rw [Finset.insert_sdiff_of_not_mem _ hnotm] at *
        rw [Finset.insert_eq_self.mpr hin2]
        exact Finset.add_sum_erase _ dval hin2
      · have hnotin : it.file.hash ∉ ChaptGen1.hashFinset rest \ seen.toFinset := by
          simp [Finset.mem_sdiff, hin]
        rw [Finset.insert_sdiff_of_not_mem _ hnotm]
        rw [Finset.sum_insert hnotin, Finset.erase_eq_of_not_mem hnotin]

/-- Claim C8 as amended: full report determinism fails under worker
scheduling (see the counterexample: the per-folder attribution of a duplicate
group follows whichever thread claims its hash first), but the grand total of
the threaded dedup variant is schedule-independent: any two claim orders that
are permutations of each other yield the same sum(results.values()), provided
each file's probed duration is determined by its hash outcome (as is the case
when duration is determined by file content). -/
theorem C8_schedule_amended (L Lp : List QItem) (dval : Option Nat → ℚ)
    (hperm : List.Perm L Lp)
    (hd : ∀ it ∈ L, get_video_duration it.file = dval it.file.hash) :
    ChaptGen1.total_duration L = ChaptGen1.total_duration Lp := by
  have hd2 : ∀ it ∈ Lp, get_video_duration it.file = dval it.file.hash :=
    fun it hit => hd it (hperm.mem_iff.mpr hit)
  have hfs : ChaptGen1.hashFinset L = ChaptGen1.hashFinset Lp := by
    apply Finset.ext
    intro a
    simp only [ChaptGen1.hashFinset, List.mem_toFinset]
    exact (hperm.map (fun it => it.file.hash)).mem_iff
  have e1 := chapt_run_sum L [] []
  have e2 := chapt_run_sum Lp [] []
  have k1 := chapt_kept_hash_sum dval L [] hd
  have k2 := chapt_kept_hash_sum dval Lp [] hd2
  simp only [ChaptGen1.total_duration, ChaptGen1.results, List.map_nil, List.sum_nil,
    zero_add] at *
  rw [e1, e2, k1, k2, hfs]

/-- Witness for C8_schedule_amended at the two concrete schedules of the
duplicate pair. -/
theorem C8_schedule_amended_witness :
    List.Perm [itemA, itemB] [itemB, itemA] ∧
    (∀ it ∈ [itemA, itemB], get_video_duration it.file = (fun _ : Option Nat => (15 : ℚ)) it.file.hash) ∧
    ChaptGen1.total_duration [itemA, itemB] = ChaptGen1.total_duration [itemB, itemA] := by
  have hp : List.Perm [itemA, itemB] [itemB, itemA] := List.Perm.swap itemB itemA []
  have hd : ∀ it ∈ [itemA, itemB],
      get_video_duration it.file = (fun _ : Option Nat => (15 : ℚ)) it.file.hash := by
    intro it hit
    rcases List.mem_cons.mp hit with h | h
    · subst h; rfl
    · rcases List.mem_cons.mp h with h2 | h2
      · subst h2; rfl
      · cases h2
  exact ⟨hp, hd, C8_schedule_amended [itemA, itemB] [itemB, itemA] (fun _ => 15) hp hd⟩

/-- Claim C4: a failed probe yields exactly 0; every matching file of the
walk is probed — in particular files after a failing one are still processed,
since the probe-call list never depends on any probe outcome — and no file is
probed more than once within a run (probe-call count exactly 1), so a failed
probe is never retried. -/
theorem C4_probe_failure (W : Walk) (e : WalkEntry) (f : VFile)
    (hwf : wfWalk W) (hnames : ∀ e2 ∈ W, (e2.2.map VFile.name).Nodup)
    (he : e ∈ W) (hf : f ∈ e.2) (hm : matchLower f.name = true) :
    (f.probe = none → get_video_duration f = 0) ∧
    (e.1, f.name) ∈ Gen4.probe_calls W ∧
    (Gen4.probe_calls W).Nodup := by
  have hmem : (e.1, f.name) ∈ Gen4.probe_calls W := by
    refine List.mem_flatMap.mpr ⟨e, he, ?_⟩
    exact List.mem_map.mpr ⟨f, List.mem_filter.mpr ⟨hf, hm⟩, rfl⟩
  have hnodup : (Gen4.probe_calls W).Nodup := by
    refine List.nodup_flatMap.mpr ⟨?_, ?_⟩
    · intro e2 he2
      have hsub : ((e2.2.filter (fun g => matchLower g.name)).map VFile.name).Sublist
          (e2.2.map VFile.name) := (List.filter_sublist _).map VFile.name
      have hnn : ((e2.2.filter (fun g => matchLower g.name)).map VFile.name).Nodup :=
        (hnames e2 he2).sublist hsub
      have hcomp : (e2.2.filter (fun g => matchLower g.name)).map (fun g => (e2.1, g.name)) =
          ((e2.2.filter (fun g => matchLower g.name)).map VFile.name).map
            (fun nm => (e2.1, nm)) := by
        rw [List.map_map]; rfl
      rw [hcomp]
      exact hnn.map (fun a b hab => by injection hab)
    · have hkeys : List.Pairwise (fun a b : WalkEntry => a.1 ≠ b.1) W := by
        have h1 := hwf.1
        simp only [walkKeys] at h1
        have h2 : List.Pairwise (fun a b : FolderPath => a ≠ b) (W.map Prod.fst) := h1
        exact List.pairwise_map.mp h2
      refine hkeys.imp ?_
      intro a b hne
      intro x hxa hxb
      rcases List.mem_map.mp hxa with ⟨g1, _, hg1⟩
      rcases List.mem_map.mp hxb with ⟨g2, _, hg2⟩
      apply hne
      rw [← hg1] at hg2
      injection hg2 with h1 h2
      exact h1.symm
  exact ⟨fun hp => by simp [get_video_duration, hp], hmem, hnodup⟩

/-- Witness for C4_probe_failure: the depth-3 walk exW1 contains in folder C
a matching file whose probe fails; it is probed exactly once. -/
theorem C4_probe_failure_witness :
    wfWalk exW1 ∧
    (⟨nmVid, none, some 4⟩ : VFile).probe = none ∧
    get_video_duration ⟨nmVid, none, some 4⟩ = 0 ∧
    ([compC], nmVid) ∈ Gen4.probe_calls exW1 ∧
    (Gen4.probe_calls exW1).Nodup := by
  have h := C4_probe_failure exW1 ([compC], [⟨nmVid, none, some 4⟩]) ⟨nmVid, none, some 4⟩
    (by decide) (by decide)
    (by simp [exW1]) (by simp) (by decide)
  exact ⟨by decide, rfl, h.1 rfl, h.2.1, h.2.2⟩

/-- Claim C1, counterexample: in nemultilocalduration_gen1.py the reported
per-folder "Total duration" carries only the folder's direct duration — there
is no roll-up step — so on the walk root, A (direct 10s), A/B (direct 20s)
the report shows 10 for A, while the claimed invariant (direct duration of A
plus the total of its child A/B) requires 10 + 20. -/
theorem C1_counterexample :
    Nemulti.reported exW1c [compA] = some 10 ∧
    Nemulti.reported exW1c [compA, compB] = some 20 ∧
    Nemulti.reported exW1c [compA] ≠ some (10 + 20) := by
  refine ⟨?_, ?_, ?_⟩ <;>
    simp [Nemulti.reported, Nemulti.folder_durations, Nemulti.process_videos_in_folder,
      exW1c, nmVid, matchLower, pyLower, pyEndsWith, extMov, extMp4, get_video_duration,
      compA, compB, List.find?]

/-- Python int() truncation agrees with floor on nonnegative values. -/
theorem pyInt_of_nonneg (q : ℚ) (h : 0 ≤ q) : pyInt q = ⌊q⌋ := if_pos h

/-- Python a % b is nonnegative for positive b. -/
theorem pyMod_nonneg (a b : ℚ) (hb : 0 < b) : 0 ≤ pyMod a b := by
  have h1 : (⌊a / b⌋ : ℚ) ≤ a / b := Int.floor_le _
  have h2 : b * (⌊a / b⌋ : ℚ) ≤ b * (a / b) := mul_le_mul_of_nonneg_left h1 hb.le
  have h3 : b * (a / b) = a := by field_simp
  simp only [pyMod]
  linarith

/-- Python a % b is below b for positive b. -/
theorem pyMod_lt (a b : ℚ) (hb : 0 < b) : pyMod a b < b := by
  have h1 : a / b < (⌊a / b⌋ : ℚ) + 1 := Int.lt_floor_add_one _
  have h2 : b * (a / b) < b * ((⌊a / b⌋ : ℚ) + 1) := mul_lt_mul_of_pos_left h1 hb
  have h3 : b * (a / b) = a := by field_simp
  simp only [pyMod]
  nlinarith

/-- Dividing the 3600-remainder by 60 floors to the minute count. -/
theorem pyMod_div_floor (s : ℚ) :
    ⌊pyMod s 3600 / 60⌋ = ⌊s / 60⌋ - 60 * ⌊s / 3600⌋ := by
  have h : pyMod s 3600 / 60 = s / 60 - ((60 * ⌊s / 3600⌋ : ℤ) : ℚ) := by
    simp only [pyMod]
    push_cast
    ring
  rw [h, Int.floor_sub_int]

/-- The seconds remainder can be taken before or after removing whole
hours. -/
theorem pyMod_pyMod (s : ℚ) : pyMod (pyMod s 3600) 60 = pyMod s 60 := by
  have h := pyMod_div_floor s
  simp only [pyMod] at h ⊢
  rw [h]
  push_cast
  ring

/-- Claim C6: for every nonnegative duration s, format_time_hms computes
hours = floor(s / 3600), minutes = floor((s mod 3600) / 60) and
seconds = floor(s mod 60); minutes and seconds lie in [0, 60); and the
displayed triple underestimates s by less than one second — fractional
seconds are truncated, never rounded up, and no fractional part remains in
the output. -/
theorem C6_format_truncates (s : ℚ) (hs : 0 ≤ s) :
    (format_time_hms s).1 = ⌊s / 3600⌋ ∧
    (format_time_hms s).2.1 = ⌊pyMod s 3600 / 60⌋ ∧
    (format_time_hms s).2.2 = ⌊pyMod s 60⌋ ∧
    (0 ≤ (format_time_hms s).2.1 ∧ (format_time_hms s).2.1 < 60) ∧
    (0 ≤ (format_time_hms s).2.2 ∧ (format_time_hms s).2.2 < 60) ∧
    (((format_time_hms s).1 * 3600 + (format_time_hms s).2.1 * 60 +
        (format_time_hms s).2.2 : ℤ) : ℚ) ≤ s ∧
    s < (((format_time_hms s).1 * 3600 + (format_time_hms s).2.1 * 60 +
        (format_time_hms s).2.2 : ℤ) : ℚ) + 1 := by
  have h3600 : (0 : ℚ) < 3600 := by norm_num
  have h60 : (0 : ℚ) < 60 := by norm_num
  have hr1lo := pyMod_nonneg s 3600 h3600
  have hr1hi := pyMod_lt s 3600 h3600
  have hr2lo := pyMod_nonneg s 60 h60
  have hr2hi := pyMod_lt s 60 h60
  have hH : (format_time_hms s).1 = ⌊s / 3600⌋ := by
    have hq : (0 : ℚ) ≤ ((⌊s / 3600⌋ : ℤ) : ℚ) := by
      have : (0 : ℤ) ≤ ⌊s / 3600⌋ := Int.floor_nonneg.mpr (by positivity)
      exact_mod_cast this
    simp [format_time_hms, pyFloorDiv, pyInt_of_nonneg _ hq]
  have hM : (format_time_hms s).2.1 = ⌊pyMod s 3600 / 60⌋ := by
    have hq : (0 : ℚ) ≤ ((⌊pyMod s 3600 / 60⌋ : ℤ) : ℚ) := by
      have : (0 : ℤ) ≤ ⌊pyMod s 3600 / 60⌋ := Int.floor_nonneg.mpr (by positivity)
      exact_mod_cast this
    simp [format_time_hms, pyFloorDiv, pyInt_of_nonneg _ hq]
  have hS : (format_time_hms s).2.2 = ⌊pyMod s 60⌋ := by
    simp [format_time_hms, pyInt_of_nonneg _ hr2lo]
  have hMlo : 0 ≤ (format_time_hms s).2.1 := by
    rw [hM]
    exact Int.floor_nonneg.mpr (by positivity)
  have hMhi : (format_time_hms s).2.1 < 60 := by
    rw [hM]
    have : pyMod s 3600 / 60 < 60 := by
      rw [div_lt_iff₀ h60]
      linarith
    exact Int.floor_lt.mpr (by exact_mod_cast this)
  have hSlo : 0 ≤ (format_time_hms s).2.2 := by
    rw [hS]
    exact Int.floor_nonneg.mpr hr2lo
  have hShi : (format_time_hms s).2.2 < 60 := by
    rw [hS]
    exact Int.floor_lt.mpr (by exact_mod_cast hr2hi)
  have hsplit1 : s = 3600 * ((⌊s / 3600⌋ : ℤ) : ℚ) + pyMod s 3600 := by
    simp only [pyMod]
    ring
  have hsplit2 : pyMod s 3600 =
      60 * ((⌊pyMod s 3600 / 60⌋ : ℤ) : ℚ) + pyMod s 60 := by
    conv_lhs => rw [show pyMod s 3600 =
      60 * ((⌊pyMod s 3600 / 60⌋ : ℤ) : ℚ) + pyMod (pyMod s 3600) 60 by
        simp only [pyMod]; ring]
    rw [pyMod_pyMod]
  have hfl : ((⌊pyMod s 60⌋ : ℤ) : ℚ) ≤ pyMod s 60 := Int.floor_le _
  have hfh : pyMod s 60 < ((⌊pyMod s 60⌋ : ℤ) : ℚ) + 1 := Int.lt_floor_add_one _
  refine ⟨hH, hM, hS, ⟨hMlo, hMhi⟩, ⟨hSlo, hShi⟩, ?_, ?_⟩
  · rw [hH, hM, hS]
    push_cast
    linarith
  · rw [hH, hM, hS]
    push_cast
    linarith

/-- Witness for C6_format_truncates at the fractional duration 3623.5
seconds, which formats to 1 hour, 0 minutes, 23 seconds. -/
theorem C6_format_truncates_witness :
    (0 : ℚ) ≤ 7247 / 2 ∧
    (format_time_hms (7247 / 2)).1 = ⌊(7247 / 2 : ℚ) / 3600⌋ ∧
    (((format_time_hms (7247 / 2)).1 * 3600 + (format_time_hms (7247 / 2)).2.1 * 60 +
        (format_time_hms (7247 / 2)).2.2 : ℤ) : ℚ) ≤ 7247 / 2 :=
  ⟨by norm_num, (C6_format_truncates (7247 / 2) (by norm_num)).1,
    (C6_format_truncates (7247 / 2) (by norm_num)).2.2.2.2.2.1⟩

/-- Claim C9, counterexample: deepseek_chaptaiashwant.py emits its per-folder
report in dictionary insertion order, i.e. walk order, with no sorting; on a
legitimate walk that lists folder B before folder A (os.walk order is the
filesystem listing order), the emitted rows are B then A, which is not
lexicographically sorted by folder path. -/
theorem C9_counterexample :
    wfWalk exW9 ∧
    (DeepChapt.folder_rows exW9).map Prod.fst = [[compB], [compA]] ∧
    ¬ List.Sorted (fun a b : FolderPath => pathKey [] a ≤ pathKey [] b)
        ((DeepChapt.folder_rows exW9).map Prod.fst) := by
  have hrows : (DeepChapt.folder_rows exW9).map Prod.fst = [[compB], [compA]] := by
    simp [DeepChapt.folder_rows, exW9, nmVid, matchExact, pyEndsWith, extMov, extMp4,
      List.isSuffixOf]
  refine ⟨by decide, hrows, ?_⟩
  rw [hrows]
  decide

/-- Claim C9 as amended: the gen4 report (the same row list feeds the log and
the CSV) is sorted lexicographically by full folder path for every input
walk; the deepseek_chaptaiashwant.py report is emitted in walk order and need
not be sorted (see the counterexample). -/
theorem C9_report_sorted_amended (root : List Char) (W : Walk) :
    List.Sorted (fun a b : List Char × ℤ × ℤ × ℤ => a.1 ≤ b.1) (Gen4.report_rows root W) := by
  have htrans : ∀ a b c : FolderPath,
      decide (pathKey root a ≤ pathKey root b) = true →
      decide (pathKey root b ≤ pathKey root c) = true →
      decide (pathKey root a ≤ pathKey root c) = true := by
    intro a b c hab hbc
    exact decide_eq_true (le_trans (of_decide_eq_true hab) (of_decide_eq_true hbc))
  have htotal : ∀ a b : FolderPath,
      (decide (pathKey root a ≤ pathKey root b) ||
        decide (pathKey root b ≤ pathKey root a)) = true := by
    intro a b
    rcases le_total (pathKey root a) (pathKey root b) with h | h
    · simp [h]
    · simp [h]
  have hs := List.sorted_mergeSort htrans htotal (walkKeys W)
  show List.Pairwise _ _
  unfold Gen4.report_rows
  refine List.Pairwise.map _ ?_ hs
  intro a b hab
  exact of_decide_eq_true hab

/-- Every path is an initial segment of itself. -/
theorem under_refl (p : FolderPath) : under p p = true := by
  induction p with
  | nil => rfl
  | cons a as ih => simp [under, ih]

/-- The initial-segment test holds exactly when the longer path extends the
shorter one. -/
theorem under_iff : ∀ (p q : FolderPath), under p q = true ↔ ∃ r, q = p ++ r
  | [], q => by simp [under]
  | a :: as, [] => by simp [under]
  | a :: as, b :: bs => by
    rw [show under (a :: as) (b :: bs) = (decide (a = b) && under as bs) from rfl]
    rw [Bool.and_eq_true, decide_eq_true_iff, under_iff as bs]
    constructor
    · rintro ⟨hab, r, hr⟩
      exact ⟨r, by rw [List.cons_append, ← hab, ← hr]⟩
    · rintro ⟨r, hr⟩
      rw [List.cons_append] at hr
      injection hr with h1 h2
      exact ⟨h1.symm, r, h2⟩

/-- An initial segment is no longer than the whole path. -/
theorem under_length {p q : FolderPath} (h : under p q = true) : p.length ≤ q.length := by
  rcases (under_iff p q).mp h with ⟨r, rfl⟩
  simp

/-- Initial segments compose. -/
theorem under_trans {p q r : FolderPath} (h1 : under p q = true) (h2 : under q r = true) :
    under p r = true := by
  rcases (under_iff p q).mp h1 with ⟨x, rfl⟩
  rcases (under_iff _ r).mp h2 with ⟨y, rfl⟩
  exact (under_iff _ _).mpr ⟨x ++ y, by simp⟩

/-- A strict initial segment extends to an initial segment one component
longer. -/
theorem under_child {p q : FolderPath} (h : under p q = true) (hne : q ≠ p) :
    ∃ x, under (p ++ [x]) q = true := by
  rcases (under_iff p q).mp h with ⟨r, rfl⟩
  rcases r with _ | ⟨x, xs⟩
  · exact absurd (by simp) hne
  · exact ⟨x, (under_iff _ _).mpr ⟨xs, by simp⟩⟩

/-- A nonempty path is its parent plus its last component. -/
theorem child_eq {p c : FolderPath} (hc : c ≠ []) (hd : c.dropLast = p) :
    c = p ++ [c.getLast hc] := by
  conv_lhs => rw [← List.dropLast_append_getLast hc]
  rw [hd]

/-- Two one-component extensions of the same path that are both initial
segments of the same path agree. -/
theorem under_same_child {p : FolderPath} {x y : List Char} {q : FolderPath}
    (h1 : under (p ++ [x]) q = true) (h2 : under (p ++ [y]) q = true) : x = y := by
  rcases (under_iff _ _).mp h1 with ⟨r1, hr1⟩
  rcases (under_iff _ _).mp h2 with ⟨r2, hr2⟩
  rw [hr1, List.append_assoc, List.append_assoc] at hr2
  have h3 := List.append_cancel_left hr2
  simp only [List.singleton_append, List.cons.injEq] at h3
  exact h3.1

/-- In a well-formed walk, every initial segment of a walked folder is walked:
iterating the parent property of wfWalk. -/
theorem walk_closed_under (W : Walk) (hwf : wfWalk W) :
    ∀ (r : List (List Char)) (p : FolderPath), p ++ r ∈ walkKeys W → p ∈ walkKeys W := by
  intro r
  induction r using List.reverseRecOn with
  | nil => intro p hp; simpa using hp
  | append_singleton r x ih =>
    intro p hp
    have h1 : (p ++ r) ++ [x] ∈ walkKeys W := by simpa [List.append_assoc] using hp
    have h2 : (p ++ r) ++ [x] ≠ [] := by simp
    have h3 := hwf.2.2 _ h1 h2
    rw [List.dropLast_concat] at h3
    exact ih p h3

/-- Unpack membership in childrenOf. -/
theorem gen4_child_shape {W : Walk} {p c : FolderPath} (hc : c ∈ Gen4.childrenOf W p) :
    c ∈ walkKeys W ∧ c ≠ [] ∧ c.dropLast = p := by
  have := Finset.mem_filter.mp hc
  exact ⟨List.mem_toFinset.mp this.1, this.2.1, this.2.2⟩

/-- A child path is exactly one component longer than its parent. -/
theorem gen4_child_length {W : Walk} {p c : FolderPath} (hc : c ∈ Gen4.childrenOf W p) :
    c.length = p.length + 1 := by
  obtain ⟨_, hne, hd⟩ := gen4_child_shape hc
  rw [child_eq hne hd]
  simp

/-- The subtree of p splits into p itself plus the subtrees of its immediate
children: the equation the roll-up claim asserts, for the exact subtree
sums. -/
theorem gen4_subtree_decomp (W : Walk) (hwf : wfWalk W) (p : FolderPath)
    (hp : p ∈ walkKeys W) :
    Gen4.subtreeTotal W p =
      Gen4.initDur W p + ∑ c ∈ Gen4.childrenOf W p, Gen4.subtreeTotal W c := by
  classical
  have hset : ((walkKeys W).toFinset).filter (fun q => under p q = true) =
      insert p ((Gen4.childrenOf W p).biUnion
        (fun c => ((walkKeys W).toFinset).filter (fun q => under c q = true))) := by
    apply Finset.ext
    intro q
    simp only [Finset.mem_filter, Finset.mem_insert, Finset.mem_biUnion, List.mem_toFinset]
    constructor
    · rintro ⟨hqK, hpq⟩
      by_cases hqp : q = p
      · exact Or.inl hqp
      · rcases under_child hpq hqp with ⟨x, hx⟩
        have hmem : p ++ [x] ∈ walkKeys W := by
          rcases (under_iff _ _).mp hx with ⟨r, hr⟩
          rw [hr] at hqK
          exact walk_closed_under W hwf r (p ++ [x]) hqK
        refine Or.inr ⟨p ++ [x], ?_, ⟨hqK, hx⟩⟩
        apply Finset.mem_filter.mpr
        exact ⟨List.mem_toFinset.mpr hmem, by simp, List.dropLast_concat⟩
    · rintro (rfl | ⟨c, hc, hqK, hcq⟩)
      · exact ⟨hp, under_refl _⟩
      · obtain ⟨hcK, hcne, hcd⟩ := gen4_child_shape hc
        refine ⟨hqK, ?_⟩
        have hpc : under p c = true := by
          rw [child_eq hcne hcd]
          exact (under_iff _ _).mpr ⟨[c.getLast hcne], rfl⟩
        exact under_trans hpc hcq
  have hnotmem : p ∉ (Gen4.childrenOf W p).biUnion
      (fun c => ((walkKeys W).toFinset).filter (fun q => under c q = true)) := by
    intro hmem
    rcases Finset.mem_biUnion.mp hmem with ⟨c, hc, hpc⟩
    have h1 := (Finset.mem_filter.mp hpc).2
    have h2 := under_length h1
    have h3 := gen4_child_length hc
    omega
  have hdisj : (↑(Gen4.childrenOf W p) : Set FolderPath).PairwiseDisjoint
      (fun c => ((walkKeys W).toFinset).filter (fun q => under c q = true)) := by
    intro c1 hc1 c2 hc2 hne
    apply Finset.disjoint_left.mpr
    intro q hq1 hq2
    apply hne
    obtain ⟨_, hne1, hd1⟩ := gen4_child_shape (by simpa using hc1)
    obtain ⟨_, hne2, hd2⟩ := gen4_child_shape (by simpa using hc2)
    have hu1 := (Finset.mem_filter.mp hq1).2
    have hu2 := (Finset.mem_filter.mp hq2).2
    rw [child_eq hne1 hd1] at hu1 ⊢
    rw [child_eq hne2 hd2] at hu2 ⊢
    rw [under_same_child hu1 hu2]
  rw [Gen4.subtreeTotal, hset, Finset.sum_insert hnotmem, Finset.sum_biUnion hdisj]
  rfl

/-- Invariant preservation along the roll-up loop: processing the remaining
folders (ordered deepest-first) extends the processed set while keeping
RollInv.  The order hypothesis is exactly what the deepest-first sort
guarantees: every remaining folder is at most as deep as the one processed
next. -/
theorem gen4_roll_inv (W : Walk) (hwf : wfWalk W) :
    ∀ (todo done : List FolderPath) (v : FolderPath → ℚ),
      List.Perm (done ++ todo) (walkKeys W) →
      List.Pairwise (fun a b : FolderPath => b.length ≤ a.length) todo →
      Gen4.RollInv W done v →
      Gen4.RollInv W (done ++ todo) (todo.foldl Gen4.rollStep v) := by
  intro todo
  induction todo with
  | nil =>
    intro done v hperm _ hinv
    simpa using hinv
  | cons f rest ih =>
    intro done v hperm hpair hinv
    have hfK : f ∈ walkKeys W := hperm.mem_iff.mp (by simp)
    have hnodup : (done ++ f :: rest).Nodup := hperm.symm.nodup hwf.1
    have hchild_done : ∀ c ∈ Gen4.childrenOf W f, c ∈ done := by
      intro c hc
      obtain ⟨hcK, _, _⟩ := gen4_child_shape hc
      have hcl := gen4_child_length hc
      have hcmem : c ∈ done ++ f :: rest := hperm.mem_iff.mpr hcK
      rcases List.mem_append.mp hcmem with h | h
      · exact h
      · exfalso
        rcases List.mem_cons.mp h with heq | hrest
        · rw [heq] at hcl; omega
        · have := (List.pairwise_cons.mp hpair).1 c hrest
          omega
    have hvf : v f = Gen4.subtreeTotal W f := by
      have h1 := hinv f hfK
      have hfull : (Gen4.childrenOf W f).filter (fun c => c ∈ done) = Gen4.childrenOf W f :=
        Finset.filter_eq_self.mpr hchild_done
      rw [hfull] at h1
      rw [h1, ← gen4_subtree_decomp W hwf f hfK]
    have hstep : Gen4.RollInv W (done ++ [f]) (Gen4.rollStep v f) := by
      intro p hpK
      by_cases hf0 : f = []
      · subst hf0
        rw [show Gen4.rollStep v [] = v from if_pos rfl]
        rw [hinv p hpK]
        congr 1
        apply Finset.sum_congr
        · apply Finset.filter_congr
          intro c hc
          obtain ⟨_, hcne, _⟩ := gen4_child_shape hc
          simp [List.mem_append, hcne]
        · intro x _; rfl
      · by_cases hpp : p = f.dropLast
        · have hupdate : Gen4.rollStep v f p = v p + v f := by
            rw [Gen4.rollStep, if_neg hf0, hpp, Function.update_same]
          rw [hupdate, hinv p hpK, hvf]
          have hfchild : f ∈ Gen4.childrenOf W p := by
            apply Finset.mem_filter.mpr
            exact ⟨List.mem_toFinset.mpr hfK, hf0, hpp.symm⟩
          have hfnotdone : f ∉ done := fun hfd =>
            (List.disjoint_of_nodup_append hnodup) hfd (List.mem_cons_self f rest)
          have hfilter : (Gen4.childrenOf W p).filter (fun c => c ∈ done ++ [f]) =
              insert f ((Gen4.childrenOf W p).filter (fun c => c ∈ done)) := by
            apply Finset.ext
            intro c
            simp only [Finset.mem_filter, Finset.mem_insert, List.mem_append,
              List.mem_singleton]
            constructor
            · rintro ⟨hc, hcd | hcf⟩
              · exact Or.inr ⟨hc, hcd⟩
              · exact Or.inl hcf
            · rintro (rfl | ⟨hc, hcd⟩)
              · exact ⟨hfchild, Or.inr rfl⟩
              · exact ⟨hc, Or.inl hcd⟩
          rw [hfilter, Finset.sum_insert (by simp [Finset.mem_filter, hfnotdone])]
          ring
        · have hupdate : Gen4.rollStep v f p = v p := by
            rw [Gen4.rollStep, if_neg hf0]
            exact Function.update_noteq hpp _ _
          rw [hupdate, hinv p hpK]
          congr 1
          apply Finset.sum_congr
          · apply Finset.filter_congr
            intro c hc
            obtain ⟨_, _, hcd⟩ := gen4_child_shape hc
            have hcf : c ≠ f := by
              intro hceq
              rw [hceq] at hcd
              exact hpp hcd.symm
            simp [List.mem_append, hcf]
          · intro x _; rfl
    have hperm2 : List.Perm ((done ++ [f]) ++ rest) (walkKeys W) := by
      rw [List.append_assoc, List.singleton_append]
      exact hperm
    have hfin := ih (done ++ [f]) (Gen4.rollStep v f) hperm2
      (List.pairwise_cons.mp hpair).2 hstep
    rw [List.append_assoc, List.singleton_append] at hfin
    rw [List.foldl_cons]
    exact hfin

/-- After the roll-up loop, every walked folder holds its exact subtree
total. -/
theorem gen4_folder_durations_eq_subtree (W : Walk) (hwf : wfWalk W) :
    ∀ p ∈ walkKeys W, Gen4.folder_durations W p = Gen4.subtreeTotal W p := by
  classical
  have hperm0 : List.Perm ([] ++ Gen4.sortedFolders W) (walkKeys W) := by
    simpa [Gen4.sortedFolders] using
      List.mergeSort_perm (walkKeys W) (fun a b => decide (b.length ≤ a.length))
  have htrans : ∀ a b c : FolderPath,
      decide (b.length ≤ a.length) = true →
      decide (c.length ≤ b.length) = true →
      decide (c.length ≤ a.length) = true := by
    intro a b c h1 h2
    have g1 := of_decide_eq_true h1
    have g2 := of_decide_eq_true h2
    exact decide_eq_true (le_trans g2 g1)
  have htotal : ∀ a b : FolderPath,
      (decide (b.length ≤ a.length) || decide (a.length ≤ b.length)) = true := by
    intro a b
    rcases le_total b.length a.length with h | h
    · simp [h]
    · simp [h]
  have hpair : List.Pairwise (fun a b : FolderPath => b.length ≤ a.length)
      (Gen4.sortedFolders W) := by
    have hs := List.sorted_mergeSort htrans htotal (walkKeys W)
    exact hs.imp (fun h => of_decide_eq_true h)
  have hinv0 : Gen4.RollInv W [] (Gen4.initDur W) := by
    intro p hp
    have : (Gen4.childrenOf W p).filter (fun c => c ∈ ([] : List FolderPath)) = ∅ := by
      apply Finset.filter_false_of_mem
      intro c _
      simp
    rw [this]
    simp
  have hfin := gen4_roll_inv W hwf (Gen4.sortedFolders W) [] (Gen4.initDur W)
    hperm0 hpair hinv0
  intro p hp
  have h1 := hfin p hp
  have hfull : (Gen4.childrenOf W p).filter
      (fun c => c ∈ [] ++ Gen4.sortedFolders W) = Gen4.childrenOf W p := by
    apply Finset.filter_eq_self.mpr
    intro c hc
    obtain ⟨hcK, _, _⟩ := gen4_child_shape hc
    exact hperm0.mem_iff.mpr hcK
  rw [hfull] at h1
  rw [← gen4_subtree_decomp W hwf p hp] at h1
  exact h1

/-- Claim C1 as amended (restricted to the script that performs a roll-up):
in totalcourseduartionlocal_gen4.py, for every well-formed walk and every
walked folder, the final folder_durations value equals the folder's direct
duration plus the sum of the final values of its immediate child folders —
including folders with no direct video files, which os.walk still visits and
which therefore hold entries.  In nemultilocalduration_gen1.py (also cited by
the claim) there is no roll-up and the reported per-folder durations are
direct-only, see the counterexample. -/
theorem C1_rollup_amended (W : Walk) (hwf : wfWalk W) (p : FolderPath)
    (hp : p ∈ walkKeys W) :
    Gen4.folder_durations W p =
      Gen4.initDur W p + ∑ c ∈ Gen4.childrenOf W p, Gen4.folder_durations W c := by
  rw [gen4_folder_durations_eq_subtree W hwf p hp, gen4_subtree_decomp W hwf p hp]
  congr 1
  apply Finset.sum_congr rfl
  intro c hc
  obtain ⟨hcK, _, _⟩ := gen4_child_shape hc
  exact (gen4_folder_durations_eq_subtree W hwf c hcK).symm

/-- Witness for C1_rollup_amended on the depth-3 walk exW1 at folder A. -/
theorem C1_rollup_amended_witness :
    wfWalk exW1 ∧ [compA] ∈ walkKeys exW1 ∧
    Gen4.folder_durations exW1 [compA] =
      Gen4.initDur exW1 [compA] +
        ∑ c ∈ Gen4.childrenOf exW1 [compA], Gen4.folder_durations exW1 c :=
  ⟨by decide, by decide, C1_rollup_amended exW1 (by decide) [compA] (by decide)⟩
